import Mathlib

/-!
# Dealer service: shallow embedding and verification

Shallow embedding of the card-dealing HTTP service from
`Chapter_12/ch12_r03.py` (single-hand and multi-hand dealing, the
content-negotiation gate, the process-wide seeded deck), together with the
pieces of its collaborators that the handlers call:

* `Chapter_12/ch12_r01.py` (`Card`, `Deck`) is imported by the handlers but is
  not among the examined sources; its constructions are modelled from the
  specification (each such definition carries a `Modelled from the spec:`
  doc comment).
* Python's `int(str)` conversion and werkzeug's `MultiDict.getlist(key, type)`
  are embedded with their actual library semantics, since the handlers'
  behaviour depends on them.

State is passed explicitly: each endpoint maps a request plus the process
state (module-global `deck` and the ambient randomness consumed by
`random.seed(None)`) to a response plus a new process state.
-/

set_option maxRecDepth 100000

namespace Dealer

/-- The four suit symbols of `ch12_r01.Card`.
Modelled from the spec: a suit is "one of 4 fixed symbols". -/
inductive Suit where
  | spade
  | heart
  | diamond
  | club
deriving DecidableEq, Repr

/-- A playing card: `rank` 1–13 and a suit.  Equality is value-based.
Modelled from the spec: `Card` is an "immutable value with rank (integer,
1–13 inclusive) and suit (one of 4 fixed symbols)". -/
structure Card where
  rank : Nat
  suit : Suit
deriving DecidableEq, Repr

/-- All four suits. -/
def Suit.all : List Suit := [.spade, .heart, .diamond, .club]

/-- The full 52-card set in its unshuffled construction order: one card per
rank×suit combination.  Modelled from the spec: the deck is a permutation of
"exactly 52 distinct Card values (one per rank×suit combination)". -/
def unshuffled : List Card :=
  Suit.all.flatMap fun s => (List.range 13).map fun r => ⟨r + 1, s⟩

/-! ## Seeded pseudo-random shuffle

`ch12_r03` seeds the stdlib PRNG with `random.seed(os.environ.get("DEAL_APP_SEED"))`
and then constructs `Deck()`, which shuffles the 52 cards.  Neither
`ch12_r01.Deck.__init__` nor the stdlib PRNG is among the examined sources.
Modelled from the spec (§4.1, §9): the exact algorithm is an implementation
decision; what is required is a deterministic seeded permutation of the full
52-card set.  We use a Fisher–Yates shuffle driven by a 64-bit linear
congruential generator. -/

/-- One step of a small linear congruential generator (the ZX81 constants,
modulus 65537), standing in for the stdlib PRNG state transition. -/
def lcgNext (s : Nat) : Nat :=
  (75 * s + 74) % 65537

/-- Deterministic hash of a seed string, standing in for the stdlib's
seeding of the PRNG from a string value.
Modelled from the spec: the seed (string) deterministically fixes the
initial PRNG state. -/
def strHash (s : String) : Nat :=
  s.toList.foldl (fun a c => lcgNext (a + c.toNat + 1)) 0

/-- Remove the element at position `i` from a list, returning it together
with the remainder; `none` when the list is empty (`i` is taken modulo the
length by the caller). -/
def pickOut : Nat → List Card → Option (Card × List Card)
  | _, [] => none
  | 0, x :: xs => some (x, xs)
  | i + 1, x :: xs =>
    (pickOut i xs).map fun p => (p.1, x :: p.2)

/-- Prepend a card to the list component of a (cards, PRNG state) pair. -/
def consFst (y : Card) (p : List Card × Nat) : List Card × Nat :=
  (y :: p.1, p.2)

/-- One round of the Fisher–Yates shuffle: advance the LCG, draw the card
at the resulting index, and recurse (through `go`) on the remainder. -/
def shuffleStep (go : Nat → List Card → List Card × Nat) (rng : Nat)
    (l : List Card) : List Card × Nat :=
  match pickOut (lcgNext rng % l.length) l with
  | none => ([], lcgNext rng)
  | some (y, ys) => consFst y (go (lcgNext rng) ys)

/-- Fisher–Yates shuffle, fuelled so that it is structurally recursive: at
each step the LCG advances and the card at the drawn index moves to the
front of the result.  With `fuel ≥ l.length` the whole list is consumed. -/
def shuffleGo : Nat → Nat → List Card → List Card × Nat
  | 0 => fun rng _ => ([], rng)
  | fuel + 1 => shuffleStep (shuffleGo fuel)

/-- Shuffle a list from a given PRNG state, returning the shuffled list and
the final PRNG state. -/
def shuffleRng (rng : Nat) (l : List Card) : List Card × Nat :=
  shuffleGo l.length rng l

/-! ## Deck operations -/

/-- Failure mode of `Deck.deal`. -/
inductive DeckError where
  | deckExhausted
deriving DecidableEq, Repr

/-- `Deck.deal n`: remove and return the first `n` cards of the remaining
sequence; fail with `DeckExhausted` when `n` exceeds the remaining count.
Modelled from the spec: "removes and returns the first `n` cards from the
deck's current remaining sequence.  Fails with `DeckExhausted` when `n`
exceeds the remaining count." -/
def deal (n : Nat) (d : List Card) : Except DeckError (List Card × List Card) :=
  if n ≤ d.length then .ok (d.take n, d.drop n) else .error .deckExhausted

/-! ## Process state and the deck singleton (`get_deck`) -/

/-- Process-wide mutable state seen by the handlers: the PRNG state of the
`random` module (its initial value models the OS entropy that
`random.seed(None)` would draw) and the module-global `deck`, `none` until
first constructed. -/
structure ProcState where
  rng : Nat
  deck : Option (List Card)
deriving DecidableEq, Repr

/-- `get_deck` from `ch12_r03.py`: on first call seed the PRNG from the
optional `DEAL_APP_SEED` environment value (a supplied seed string fixes the
state deterministically; an absent seed leaves the ambient entropy) and
construct the shuffled deck; on every later call return the stored deck
unchanged. -/
def getDeck (seed : Option String) (s : ProcState) : List Card × ProcState :=
  match s.deck with
  | some d => (d, s)
  | none =>
    let r0 := match seed with
      | none => s.rng
      | some v => strHash v
    let p := shuffleRng r0 unshuffled
    (p.1, { rng := p.2, deck := some p.1 })

/-! ## Python `int()` and werkzeug `getlist` -/

/-- The six ASCII whitespace characters stripped by Python's `int(str)`
conversion (`str.strip` whitespace; the further Unicode whitespace accepted
by CPython is outside the ASCII scope of this embedding and no request in
the claims uses it). -/
def pyWhitespace (c : Char) : Bool :=
  c == ' ' || c == '\t' || c == '\n' || c == '\r' ||
    c == '\x0b' || c == '\x0c'

/-- Strip leading and trailing Python whitespace. -/
def stripWs (l : List Char) : List Char :=
  ((l.dropWhile pyWhitespace).reverse.dropWhile pyWhitespace).reverse

/-- Is `l` a valid Python base-10 digit run: nonempty, digits with optional
single underscores strictly between digits (PEP 515 grouping)? -/
def digitRunOk (l : List Char) : Bool :=
  !l.isEmpty &&
  l.all (fun c => c.isDigit || c == '_') &&
  (match l.head? with | some c => c.isDigit | none => false) &&
  (match l.getLast? with | some c => c.isDigit | none => false) &&
  (l.zip l.tail).all fun p => !(p.1 == '_' && p.2 == '_')

/-- Numeric value of a digit run (underscores removed by the caller). -/
def digitsVal (l : List Char) : Nat :=
  l.foldl (fun a c => 10 * a + (c.toNat - '0'.toNat)) 0

/-- Python's `int(s)` for a string `s`: strip whitespace, optional sign,
then a valid digit run; `none` models the `ValueError` raised otherwise. -/
def pyParseInt (s : String) : Option Int :=
  let l := stripWs s.toList
  match l with
  | '+' :: rest =>
    if digitRunOk rest then some (Int.ofNat (digitsVal (rest.filter fun c => c != '_')))
    else none
  | '-' :: rest =>
    if digitRunOk rest then some (-Int.ofNat (digitsVal (rest.filter fun c => c != '_')))
    else none
  | _ =>
    if digitRunOk l then some (Int.ofNat (digitsVal (l.filter fun c => c != '_')))
    else none

/-- werkzeug's `MultiDict.getlist(key, type=int)`, as called by
`request.args.getlist("cards", type=int)`: apply `int` to each raw value for
the key and silently skip any value whose conversion raises `ValueError`. -/
def getlistInt (vals : List String) : List Int :=
  vals.filterMap pyParseInt

/-! ## The handlers of `ch12_r03.py` -/

/-- A dealing request as the handlers see it after routing: the path, the
optional `Accept` header, the optional `$format` query parameter, and the
raw repeated `cards` query parameter values in order. -/
structure HttpRequest where
  path : String
  accept : Option String
  format : Option String
  cards : List String
deriving DecidableEq, Repr

/-- Response abstraction: a dealt hand, the multi-hand array (`hand` index
paired with its cards, as built by `enumerate`), a served OpenAPI document,
HTTP 400 (`abort(BAD_REQUEST)`), HTTP 404, or an unhandled exception
escaping the handler (HTTP 500 — not a 400). -/
inductive AppResp where
  | hand (cards : List Card)
  | hands (entries : List (Nat × List Card))
  | doc (yaml : Bool)
  | badRequest
  | notFound
  | serverError
deriving DecidableEq, Repr

/-- `check_json` from `ch12_r03.py` (`@dealer.before_request`): let the two
OpenAPI paths through unconditionally; otherwise pass iff `"json"` occurs as
a substring of the `Accept` header (defaulting to `"*/*"` when absent) or
the `$format` query parameter (defaulting to `"html"`) equals `"json"`. -/
def check_json (path : String) (accept format : Option String) : Bool :=
  if path = "/dealer/openapi.yaml" ∨ path = "/dealer/openapi.json" then true
  else if "json".toList <:+: (accept.getD "*/*").toList then true
  else if (format.getD "html") = "json" then true
  else false

/-- The effective `cards` value seen by the single-hand handler:
`request.args.get("cards", 5)` returns the first raw value when present and
the integer 5 otherwise, after which `int(...)` is applied (the int default
never fails to convert). -/
def parseHandSize (cardsFirst : Option String) : Option Int :=
  match cardsFirst with
  | none => some 5
  | some s => pyParseInt s

/-- The `deal` handler for `GET /dealer/hand`: parse `cards` (default 5),
require `1 <= hand_size < 53` (any parse failure or assertion failure is
caught and yields 400), then construct/fetch the deck and deal.  A
`DeckExhausted` failure is outside the `try` block and escapes as a server
error, leaving the deck as constructed. -/
def dealHandler (seed : Option String) (cardsFirst : Option String)
    (s : ProcState) : AppResp × ProcState :=
  match parseHandSize cardsFirst with
  | none => (.badRequest, s)
  | some n =>
    if 1 ≤ n ∧ n < 53 then
      let p := getDeck seed s
      match deal n.toNat p.1 with
      | .ok q => (.hand q.1, { p.2 with deck := some q.2 })
      | .error _ => (.serverError, p.2)
    else (.badRequest, s)

/-- The effective list of requested hand sizes of `multi_hand`:
`getlist("cards", type=int)`, replaced by `[13, 13, 13, 13]` when empty. -/
def effSizes (cardsVals : List String) : List Int :=
  let l := getlistInt cardsVals
  if l.length = 0 then [13, 13, 13, 13] else l

/-- Deal one hand per size sequentially against the same deck, in order,
short-circuiting on the first `DeckExhausted` (the deck keeps the cards
dealt before the failure, as the Python list comprehension would leave the
global deck). -/
def dealSeq : List Nat → List Card → Except DeckError (List (List Card)) × List Card
  | [], d => (.ok [], d)
  | n :: ns, d =>
    match deal n d with
    | .error e => (.error e, d)
    | .ok p =>
      match dealSeq ns p.2 with
      | (.ok hs, d') => (.ok (p.1 :: hs), d')
      | (.error e, d') => (.error e, d')

/-- The `multi_hand` handler for `GET /dealer/hands`: read the sizes,
default them, check every size is in `[1, 53)` and the sum is `< 53`
(failures yield 400 before the deck is touched), then fetch the deck and
deal each hand in order, shaping the result with `enumerate`. -/
def multiHand (seed : Option String) (cardsVals : List String)
    (s : ProcState) : AppResp × ProcState :=
  let sizes := effSizes cardsVals
  if (∀ n ∈ sizes, 1 ≤ n ∧ n < 53) ∧ sizes.sum < 53 then
    let p := getDeck seed s
    match dealSeq (sizes.map Int.toNat) p.1 with
    | (.ok hs, d') => (.hands hs.enum, { p.2 with deck := some d' })
    | (.error _, d') => (.serverError, { p.2 with deck := some d' })
  else (.badRequest, s)

/-- The whole application for one request: the `before_request` gate runs
first and rejects with 400 before any routing, validation or dealing;
then the four routes dispatch on the path. -/
def app (seed : Option String) (req : HttpRequest) (s : ProcState) :
    AppResp × ProcState :=
  if check_json req.path req.accept req.format then
    if req.path = "/dealer/hand" then dealHandler seed req.cards.head? s
    else if req.path = "/dealer/hands" then multiHand seed req.cards s
    else if req.path = "/dealer/openapi.yaml" then (.doc true, s)
    else if req.path = "/dealer/openapi.json" then (.doc false, s)
    else (.notFound, s)
  else (.badRequest, s)

/-- Run a whole request sequence through one process, threading the process
state, and collect the responses. -/
def runApp (seed : Option String) (s : ProcState) :
    List HttpRequest → List AppResp × ProcState
  | [] => ([], s)
  | r :: rs =>
    let p := app seed r s
    let q := runApp seed p.2 rs
    (p.1 :: q.1, q.2)

/-- The hands that sequential dealing carves out of a deck: consecutive
slices, in request order. -/
def handSlices : List Nat → List Card → List (List Card)
  | [], _ => []
  | n :: ns, d => d.take n :: handSlices ns (d.drop n)

/-- How many entries a multi-hand response carries, `none` for any other
response. -/
def AppResp.handsCount : AppResp → Option Nat
  | .hands es => some es.length
  | _ => none

/-! ## Basic facts about the deck construction -/

theorem unshuffled_length : unshuffled.length = 52 := by decide

theorem unshuffled_nodup : unshuffled.Nodup := by decide

theorem pickOut_perm (i : Nat) :
    ∀ (l : List Card) (y : Card) (ys : List Card),
      pickOut i l = some (y, ys) → (y :: ys).Perm l := by
  induction i with
  | zero =>
    intro l y ys h
    cases l with
    | nil => simp [pickOut] at h
    | cons x xs =>
      simp [pickOut] at h
      obtain ⟨rfl, rfl⟩ := h
      exact List.Perm.refl _
  | succ i ih =>
    intro l y ys h
    cases l with
    | nil => simp [pickOut] at h
    | cons x xs =>
      simp only [pickOut] at h
      rcases hzx : pickOut i xs with _ | ⟨⟨z, zs⟩⟩
      · rw [hzx] at h
        simp at h
      · rw [hzx] at h
        simp only [Option.map_some'] at h
        injection h with h2
        injection h2 with h3 h4
        subst h3
        subst h4
        exact (List.Perm.swap x z zs).trans ((ih xs z zs hzx).cons x)

theorem pickOut_exists (i : Nat) :
    ∀ (l : List Card), i < l.length →
      ∃ y ys, pickOut i l = some (y, ys) := by
  induction i with
  | zero =>
    intro l h
    cases l with
    | nil => simp at h
    | cons x xs => exact ⟨x, xs, rfl⟩
  | succ i ih =>
    intro l h
    cases l with
    | nil => simp at h
    | cons x xs =>
      obtain ⟨y, ys, hy⟩ := ih xs (by simpa using h)
      exact ⟨y, x :: ys, by simp [pickOut, hy]⟩

theorem pickOut_nil (i : Nat) : pickOut i [] = none := by
  cases i <;> rfl

theorem shuffleGo_zero (rng : Nat) (l : List Card) :
    shuffleGo 0 rng l = ([], rng) := rfl

theorem shuffleGo_succ (fuel : Nat) :
    shuffleGo (fuel + 1) = shuffleStep (shuffleGo fuel) := rfl

theorem shuffleGo_succ_pick (fuel rng : Nat) (l : List Card) (y : Card)
    (ys : List Card) (h : pickOut (lcgNext rng % l.length) l = some (y, ys)) :
    shuffleGo (fuel + 1) rng l = consFst y (shuffleGo fuel (lcgNext rng) ys) := by
  rw [shuffleGo_succ]
  unfold shuffleStep
  rw [h]

theorem shuffleGo_perm :
    ∀ (fuel rng : Nat) (l : List Card), l.length ≤ fuel →
      ((shuffleGo fuel rng l).1).Perm l := by
  intro fuel
  induction fuel with
  | zero =>
    intro rng l h
    have : l = [] := List.eq_nil_of_length_eq_zero (Nat.le_zero.mp h)
    subst this
    rw [shuffleGo_zero]
  | succ fuel ih =>
    intro rng l h
    cases l with
    | nil =>
      have h0 : shuffleGo (fuel + 1) rng [] = ([], lcgNext rng) := by
        rw [shuffleGo_succ]
        unfold shuffleStep
        rw [pickOut_nil]
      rw [h0]
    | cons x xs =>
      have hlt : lcgNext rng % (x :: xs).length < (x :: xs).length :=
        Nat.mod_lt _ (by simp)
      obtain ⟨y, ys, hpick⟩ := pickOut_exists _ _ hlt
      have hperm := pickOut_perm _ _ _ _ hpick
      have hlen : ys.length ≤ fuel := by
        have := hperm.length_eq
        simp only [List.length_cons] at this h
        omega
      rw [shuffleGo_succ_pick fuel rng (x :: xs) y ys hpick]
      simp only [consFst]
      exact (((ih (lcgNext rng) ys hlen).cons y).trans hperm)

theorem shuffleRng_perm (rng : Nat) (l : List Card) :
    ((shuffleRng rng l).1).Perm l :=
  shuffleGo_perm l.length rng l (Nat.le_refl _)

/-- A freshly constructed deck is a permutation of the full 52-card set. -/
theorem getDeck_fresh_perm (seed : Option String) (s : ProcState)
    (h : s.deck = none) : ((getDeck seed s).1).Perm unshuffled := by
  cases s with
  | mk rng deck =>
    cases h
    cases seed <;> exact shuffleRng_perm _ _

theorem getDeck_fresh_length (seed : Option String) (s : ProcState)
    (h : s.deck = none) : ((getDeck seed s).1).length = 52 := by
  rw [(getDeck_fresh_perm seed s h).length_eq]
  exact unshuffled_length

/-- Once the deck exists, `get_deck` returns it and leaves the state
untouched. -/
theorem getDeck_stable (seed : Option String) (s : ProcState) (d : List Card)
    (h : s.deck = some d) : getDeck seed s = (d, s) := by
  cases s with
  | mk rng deck =>
    cases h
    rfl

/-- With a supplied seed, `get_deck` depends on the state only through the
stored deck: the ambient entropy is never consulted. -/
theorem getDeck_congr (v : String) (s1 s2 : ProcState)
    (h : s1.deck = s2.deck) :
    (getDeck (some v) s1).1 = (getDeck (some v) s2).1 ∧
    (getDeck (some v) s1).2.deck = (getDeck (some v) s2).2.deck := by
  cases s1 with
  | mk r1 d1 =>
    cases s2 with
    | mk r2 d2 =>
      simp only at h
      subst h
      cases d1 with
      | none => exact ⟨rfl, rfl⟩
      | some d => exact ⟨rfl, rfl⟩

/-! ## Sequential dealing against one deck -/

theorem deal_le (n : Nat) (d : List Card) (h : n ≤ d.length) :
    deal n d = .ok (d.take n, d.drop n) := by
  rw [deal, if_pos h]

theorem deal_gt (n : Nat) (d : List Card) (h : d.length < n) :
    deal n d = .error .deckExhausted := by
  rw [deal, if_neg (by omega)]

theorem dealSeq_ok :
    ∀ (ns : List Nat) (d : List Card), ns.sum ≤ d.length →
      dealSeq ns d = (.ok (handSlices ns d), d.drop ns.sum) := by
  intro ns
  induction ns with
  | nil =>
    intro d h
    simp [dealSeq, handSlices]
  | cons n ns ih =>
    intro d h
    rw [List.sum_cons] at h
    have hn : n ≤ d.length := Nat.le_trans (Nat.le_add_right _ _) h
    have hrest : ns.sum ≤ (d.drop n).length := by
      rw [List.length_drop]
      omega
    rw [dealSeq, deal_le n d hn]
    simp only [ih (d.drop n) hrest, handSlices, List.sum_cons, List.drop_drop,
      Nat.add_comm ns.sum n]

theorem handSlices_length :
    ∀ (ns : List Nat) (d : List Card), (handSlices ns d).length = ns.length := by
  intro ns
  induction ns with
  | nil => intro d; rfl
  | cons n ns ih =>
    intro d
    rw [handSlices, List.length_cons, List.length_cons, ih]

/-- Each hand produced by sequential dealing is made of cards of the deck
it was dealt from. -/
theorem mem_handSlices_mem :
    ∀ (ns : List Nat) (d : List Card) (h : List Card), h ∈ handSlices ns d →
      ∀ c ∈ h, c ∈ d := by
  intro ns
  induction ns with
  | nil =>
    intro d h hh
    simp [handSlices] at hh
  | cons n ns ih =>
    intro d h hh c hc
    rw [handSlices] at hh
    rcases List.mem_cons.mp hh with h1 | h2
    · subst h1
      exact List.take_subset n d hc
    · exact List.drop_subset n d (ih (d.drop n) h h2 c hc)

/-- Sequential dealing from a duplicate-free deck yields pairwise disjoint
hands: no card of an earlier hand reappears in a later one. -/
theorem handSlices_disjoint :
    ∀ (ns : List Nat) (d : List Card), d.Nodup →
      (handSlices ns d).Pairwise List.Disjoint := by
  intro ns
  induction ns with
  | nil =>
    intro d _
    exact List.Pairwise.nil
  | cons n ns ih =>
    intro d hd
    rw [handSlices]
    refine List.Pairwise.cons ?_ (ih (d.drop n) ((List.drop_sublist n d).nodup hd))
    intro b hb a ha hab
    exact List.disjoint_take_drop hd (Nat.le_refl n) ha
      (mem_handSlices_mem ns (d.drop n) b hb a hab)

/-- When the whole request fits the deck, each dealt hand has exactly the
requested size, position by position. -/
theorem handSlices_sizes :
    ∀ (ns : List Nat) (d : List Card), ns.sum ≤ d.length →
      List.Forall₂ (fun n h => (h : List Card).length = n) ns (handSlices ns d) := by
  intro ns
  induction ns with
  | nil =>
    intro d _
    exact List.Forall₂.nil
  | cons n ns ih =>
    intro d h
    rw [List.sum_cons] at h
    rw [handSlices]
    refine List.Forall₂.cons ?_ (ih (d.drop n) ?_)
    · rw [List.length_take]
      omega
    · rw [List.length_drop]
      omega

/-! ## Determinism of a seeded process -/

/-- With a supplied seed, the single-hand handler depends on the process
state only through the stored deck. -/
theorem dealHandler_congr (v : String) (cf : Option String) (s1 s2 : ProcState)
    (h : s1.deck = s2.deck) :
    (dealHandler (some v) cf s1).1 = (dealHandler (some v) cf s2).1 ∧
    (dealHandler (some v) cf s1).2.deck = (dealHandler (some v) cf s2).2.deck := by
  obtain ⟨h1, h2⟩ := getDeck_congr v s1 s2 h
  cases hp : parseHandSize cf with
  | none =>
    simp only [dealHandler, hp]
    exact ⟨trivial, h⟩
  | some n =>
    simp only [dealHandler, hp]
    by_cases hr : 1 ≤ n ∧ n < 53
    · rw [if_pos hr, if_pos hr, h1]
      cases hdeal : deal n.toNat (getDeck (some v) s2).1 with
      | ok q => exact ⟨rfl, rfl⟩
      | error e => exact ⟨rfl, h2⟩
    · rw [if_neg hr, if_neg hr]
      exact ⟨rfl, h⟩

/-- With a supplied seed, the multi-hand handler depends on the process
state only through the stored deck. -/
theorem multiHand_congr (v : String) (vals : List String) (s1 s2 : ProcState)
    (h : s1.deck = s2.deck) :
    (multiHand (some v) vals s1).1 = (multiHand (some v) vals s2).1 ∧
    (multiHand (some v) vals s1).2.deck = (multiHand (some v) vals s2).2.deck := by
  obtain ⟨h1, h2⟩ := getDeck_congr v s1 s2 h
  simp only [multiHand]
  by_cases hv : (∀ n ∈ effSizes vals, 1 ≤ n ∧ n < 53) ∧ (effSizes vals).sum < 53
  · rw [if_pos hv, if_pos hv, h1]
    rcases hds : dealSeq ((effSizes vals).map Int.toNat) (getDeck (some v) s2).1
      with ⟨res, d'⟩
    cases res with
    | ok hs => exact ⟨rfl, rfl⟩
    | error e => exact ⟨rfl, rfl⟩
  · rw [if_neg hv, if_neg hv]
    exact ⟨rfl, h⟩

/-- With a supplied seed, one request step depends on the process state
only through the stored deck. -/
theorem app_congr (v : String) (req : HttpRequest) (s1 s2 : ProcState)
    (h : s1.deck = s2.deck) :
    (app (some v) req s1).1 = (app (some v) req s2).1 ∧
    (app (some v) req s1).2.deck = (app (some v) req s2).2.deck := by
  simp only [app]
  by_cases hcj : check_json req.path req.accept req.format = true
  · rw [if_pos hcj, if_pos hcj]
    by_cases hp1 : req.path = "/dealer/hand"
    · rw [if_pos hp1, if_pos hp1]
      exact dealHandler_congr v req.cards.head? s1 s2 h
    · rw [if_neg hp1, if_neg hp1]
      by_cases hp2 : req.path = "/dealer/hands"
      · rw [if_pos hp2, if_pos hp2]
        exact multiHand_congr v req.cards s1 s2 h
      · rw [if_neg hp2, if_neg hp2]
        by_cases hp3 : req.path = "/dealer/openapi.yaml"
        · rw [if_pos hp3, if_pos hp3]
          exact ⟨rfl, h⟩
        · rw [if_neg hp3, if_neg hp3]
          by_cases hp4 : req.path = "/dealer/openapi.json"
          · rw [if_pos hp4, if_pos hp4]
            exact ⟨rfl, h⟩
          · rw [if_neg hp4, if_neg hp4]
            exact ⟨rfl, h⟩
  · rw [if_neg hcj, if_neg hcj]
    exact ⟨rfl, h⟩

/-- With a supplied seed, a whole request sequence produces the same
responses and the same final deck from any two states agreeing on the
stored deck. -/
theorem runApp_congr (v : String) :
    ∀ (reqs : List HttpRequest) (s1 s2 : ProcState), s1.deck = s2.deck →
      (runApp (some v) s1 reqs).1 = (runApp (some v) s2 reqs).1 ∧
      (runApp (some v) s1 reqs).2.deck = (runApp (some v) s2 reqs).2.deck := by
  intro reqs
  induction reqs with
  | nil =>
    intro s1 s2 h
    exact ⟨rfl, h⟩
  | cons r rs ih =>
    intro s1 s2 h
    obtain ⟨h1, h2⟩ := app_congr v r s1 s2 h
    obtain ⟨h3, h4⟩ := ih (app (some v) r s1).2 (app (some v) r s2).2 h2
    simp only [runApp]
    exact ⟨by rw [h1, h3], h4⟩

/-! ## Characterizations of the handlers -/

/-- The single-hand handler answers 400 exactly when the `cards` value
fails to convert or the converted size is outside `[1, 53)`. -/
theorem dealHandler_badRequest_iff (seed : Option String) (cf : Option String)
    (s : ProcState) :
    (dealHandler seed cf s).1 = .badRequest ↔
      (parseHandSize cf = none ∨
        ∃ n, parseHandSize cf = some n ∧ (n < 1 ∨ 53 ≤ n)) := by
  cases hp : parseHandSize cf with
  | none => simp [dealHandler, hp]
  | some n =>
    by_cases hr : 1 ≤ n ∧ n < 53
    · simp only [dealHandler, hp, if_pos hr]
      cases hdeal : deal n.toNat (getDeck seed s).1 with
      | ok q =>
        simp [hdeal]
        omega
      | error e =>
        simp [hdeal]
        omega
    · simp only [dealHandler, hp, if_neg hr]
      simp
      omega

/-- A valid size against a fresh process always produces a hand of exactly
the requested size. -/
theorem dealHandler_fresh_ok (seed : Option String) (cf : Option String)
    (e : Nat) (n : Int) (hp : parseHandSize cf = some n) (h1 : 1 ≤ n)
    (h2 : n < 53) :
    (dealHandler seed cf ⟨e, none⟩).1 =
      .hand (((getDeck seed ⟨e, none⟩).1).take n.toNat) ∧
    (((getDeck seed ⟨e, none⟩).1).take n.toNat).length = n.toNat := by
  have hr : 1 ≤ n ∧ n < 53 := ⟨h1, h2⟩
  have hlen : ((getDeck seed ⟨e, none⟩).1).length = 52 :=
    getDeck_fresh_length seed ⟨e, none⟩ rfl
  have hle : n.toNat ≤ ((getDeck seed ⟨e, none⟩).1).length := by
    rw [hlen]
    omega
  have hdeal := deal_le n.toNat ((getDeck seed ⟨e, none⟩).1) hle
  constructor
  · simp only [dealHandler, hp, if_pos hr, hdeal]
  · rw [List.length_take]
    omega

/-- The multi-hand handler answers 400 exactly when the validated size
list is out of bounds (an element outside `[1, 53)` or a sum ≥ 53). -/
theorem multiHand_badRequest_iff (seed : Option String) (vals : List String)
    (s : ProcState) :
    (multiHand seed vals s).1 = .badRequest ↔
      ¬((∀ n ∈ effSizes vals, 1 ≤ n ∧ n < 53) ∧ (effSizes vals).sum < 53) := by
  by_cases hv : (∀ n ∈ effSizes vals, 1 ≤ n ∧ n < 53) ∧ (effSizes vals).sum < 53
  · simp only [multiHand, if_pos hv]
    rcases hds : dealSeq ((effSizes vals).map Int.toNat) (getDeck seed s).1
      with ⟨res, d'⟩
    cases res with
    | ok hs => exact iff_of_false (by simp) (not_not_intro hv)
    | error e => exact iff_of_false (by simp) (not_not_intro hv)
  · simp only [multiHand, if_neg hv]
    exact iff_of_true (by simp) hv

/-- On any validation failure the multi-hand handler rejects the request
and returns the process state it received, untouched. -/
theorem multiHand_invalid (seed : Option String) (vals : List String)
    (s : ProcState)
    (hbad : ¬((∀ n ∈ effSizes vals, 1 ≤ n ∧ n < 53) ∧ (effSizes vals).sum < 53)) :
    multiHand seed vals s = (.badRequest, s) := by
  simp only [multiHand, if_neg hbad]

/-- On a valid request against a stored deck large enough, the multi-hand
handler deals the consecutive slices in order and stores the shrunk deck. -/
theorem multiHand_valid_stored (seed : Option String) (vals : List String)
    (s : ProcState) (d : List Card) (hdeck : s.deck = some d)
    (hv : (∀ n ∈ effSizes vals, 1 ≤ n ∧ n < 53) ∧ (effSizes vals).sum < 53)
    (hsum : ((effSizes vals).map Int.toNat).sum ≤ d.length) :
    multiHand seed vals s =
      (.hands (handSlices ((effSizes vals).map Int.toNat) d).enum,
       { s with deck := some (d.drop ((effSizes vals).map Int.toNat).sum) }) := by
  have hg := getDeck_stable seed s d hdeck
  have hds := dealSeq_ok ((effSizes vals).map Int.toNat) d hsum
  simp only [multiHand, if_pos hv, hg, hds]

/-- Sums of size lists convert to `Nat` sums when every entry is
nonnegative. -/
theorem sum_toNat_of_nonneg :
    ∀ (l : List Int), (∀ n ∈ l, 0 ≤ n) → (l.map Int.toNat).sum = l.sum.toNat := by
  intro l
  induction l with
  | nil => intro _; rfl
  | cons n ns ih =>
    intro h
    have hn : 0 ≤ n := h n (List.mem_cons_self n ns)
    have hns : ∀ m ∈ ns, 0 ≤ m := fun m hm => h m (List.mem_cons_of_mem n hm)
    have hsum : 0 ≤ ns.sum := List.sum_nonneg hns
    rw [List.map_cons, List.sum_cons, List.sum_cons, ih hns]
    omega

/-- The content-negotiation gate for non-exempt paths: pass exactly when
`"json"` occurs inside the `Accept` value (default `"*/*"`) or `$format`
(default `"html"`) equals `"json"`. -/
theorem check_json_iff (p : String) (a f : Option String)
    (hex : ¬(p = "/dealer/openapi.yaml" ∨ p = "/dealer/openapi.json")) :
    check_json p a f = true ↔
      ("json".toList <:+: (a.getD "*/*").toList ∨ (f.getD "html") = "json") := by
  simp only [check_json, if_neg hex]
  by_cases h1 : "json".toList <:+: (a.getD "*/*").toList
  · rw [if_pos h1]
    exact iff_of_true rfl (Or.inl h1)
  · rw [if_neg h1]
    by_cases h2 : (f.getD "html") = "json"
    · rw [if_pos h2]
      exact iff_of_true rfl (Or.inr h2)
    · rw [if_neg h2]
      exact iff_of_false (by simp) (fun hcon => hcon.elim h1 h2)

/-- A request failing the gate is rejected before anything else: no route
runs and the state is returned untouched. -/
theorem app_gate_reject (seed : Option String) (req : HttpRequest)
    (s : ProcState) (h : check_json req.path req.accept req.format = false) :
    app seed req s = (.badRequest, s) := by
  simp [app, h]

/-- On a valid request, the multi-hand handler deals the consecutive
slices of the deck `get_deck` returns and stores the shrunk deck. -/
theorem multiHand_valid (seed : Option String) (vals : List String)
    (s : ProcState)
    (hv : (∀ n ∈ effSizes vals, 1 ≤ n ∧ n < 53) ∧ (effSizes vals).sum < 53)
    (hsum : ((effSizes vals).map Int.toNat).sum ≤ ((getDeck seed s).1).length) :
    multiHand seed vals s =
      (.hands (handSlices ((effSizes vals).map Int.toNat) (getDeck seed s).1).enum,
       { (getDeck seed s).2 with
          deck := some (((getDeck seed s).1).drop
            ((effSizes vals).map Int.toNat).sum) }) := by
  have hds := dealSeq_ok ((effSizes vals).map Int.toNat) (getDeck seed s).1 hsum
  simp only [multiHand, if_pos hv, hds]

/-- The multi-hand handler depends on the raw `cards` values only through
the effective size list. -/
theorem multiHand_congr_sizes (seed : Option String) (v1 v2 : List String)
    (s : ProcState) (h : effSizes v1 = effSizes v2) :
    multiHand seed v1 s = multiHand seed v2 s := by
  simp only [multiHand, h]

/-! ## The claims -/

/-- C1: For every GET request to `/dealer/hand`, the hand size is taken
from the `cards` query parameter (defaulting to 5 when absent) and the
request is rejected with HTTP 400 if and only if that value fails to parse
as an integer or lies outside the inclusive-exclusive range [1, 53); in
particular `cards=0` and `cards=53` yield 400, while `cards=1` and
`cards=52` are accepted (the latter as the first request against a fresh
deck). -/
theorem c1_single_hand_validation (seed : Option String) :
    (parseHandSize none = some 5) ∧
    (∀ (cf : Option String) (s : ProcState),
      (dealHandler seed cf s).1 = .badRequest ↔
        (parseHandSize cf = none ∨
          ∃ n, parseHandSize cf = some n ∧ (n < 1 ∨ 53 ≤ n))) ∧
    (∀ (cf : Option String) (e : Nat) (n : Int), parseHandSize cf = some n →
      1 ≤ n → n < 53 →
      ∃ h, (dealHandler seed cf ⟨e, none⟩).1 = .hand h ∧ h.length = n.toNat) ∧
    (∀ s, (dealHandler seed (some "0") s).1 = .badRequest) ∧
    (∀ s, (dealHandler seed (some "53") s).1 = .badRequest) ∧
    (∀ e, ∃ h, (dealHandler seed (some "1") ⟨e, none⟩).1 = .hand h ∧
      h.length = 1) ∧
    (∀ e, ∃ h, (dealHandler seed (some "52") ⟨e, none⟩).1 = .hand h ∧
      h.length = 52) := by
  refine ⟨rfl, dealHandler_badRequest_iff seed, ?_, ?_, ?_, ?_, ?_⟩
  · intro cf e n hp h1 h2
    obtain ⟨ha, hb⟩ := dealHandler_fresh_ok seed cf e n hp h1 h2
    exact ⟨_, ha, hb⟩
  · intro s
    rw [dealHandler_badRequest_iff]
    exact Or.inr ⟨0, by decide, Or.inl (by decide)⟩
  · intro s
    rw [dealHandler_badRequest_iff]
    exact Or.inr ⟨53, by decide, Or.inr (by decide)⟩
  · intro e
    obtain ⟨ha, hb⟩ :=
      dealHandler_fresh_ok seed (some "1") e 1 (by decide) (by decide) (by decide)
    exact ⟨_, ha, hb⟩
  · intro e
    obtain ⟨ha, hb⟩ :=
      dealHandler_fresh_ok seed (some "52") e 52 (by decide) (by decide) (by decide)
    exact ⟨_, ha, hb⟩

theorem c1_witness :
    ∃ h, (dealHandler none (some "52") ⟨0, none⟩).1 = AppResp.hand h ∧
      h.length = 52 :=
  (c1_single_hand_validation none).2.2.2.2.2.2 0

/-- C2 (code bug evidence): werkzeug's `getlist("cards", type=int)`
converts each raw value with `int` and silently skips any value raising
`ValueError`, so an unparseable `cards` value never reaches the handler's
validation: `/dealer/hands?cards=x` sees the empty list, falls back to the
default `[13, 13, 13, 13]`, and deals four hands instead of answering 400;
`/dealer/hands?cards=5&cards=x` deals one 5-card hand.  The handler's
`except ValueError` branch is unreachable for conversion failures. -/
theorem c2_unparseable_cards_dealt :
    getlistInt ["x"] = [] ∧
    effSizes ["x"] = [13, 13, 13, 13] ∧
    (multiHand none ["x"] ⟨0, none⟩).1 ≠ .badRequest ∧
    (multiHand none ["x"] ⟨0, none⟩).1.handsCount = some 4 ∧
    getlistInt ["5", "x"] = [5] ∧
    (multiHand none ["5", "x"] ⟨0, none⟩).1.handsCount = some 1 := by
  exact ⟨by decide, by decide, by decide, by decide, by decide, by decide⟩

/-- C3: On `/dealer/hands` the sizes default to exactly `[13, 13, 13, 13]`
when no `cards` parameter is supplied; each size must lie in [1, 53) and
the sum must be < 53; sizes summing to exactly 53 yield 400 while sizes
summing to 52 succeed against a fresh deck. -/
theorem c3_multi_hand_validation (seed : Option String) :
    (effSizes [] = [13, 13, 13, 13]) ∧
    (∀ s, multiHand seed [] s = multiHand seed ["13", "13", "13", "13"] s) ∧
    (∀ (vals : List String) (s : ProcState),
      (multiHand seed vals s).1 = .badRequest ↔
        ¬((∀ n ∈ effSizes vals, 1 ≤ n ∧ n < 53) ∧ (effSizes vals).sum < 53)) ∧
    (∀ vals s, (effSizes vals).sum = 53 →
      (multiHand seed vals s).1 = .badRequest) ∧
    (∀ (vals : List String) (e : Nat),
      (∀ n ∈ effSizes vals, 1 ≤ n ∧ n < 53) → (effSizes vals).sum = 52 →
      ∃ es, (multiHand seed vals ⟨e, none⟩).1 = .hands es) := by
  refine ⟨rfl, ?_, multiHand_badRequest_iff seed, ?_, ?_⟩
  · intro s
    exact multiHand_congr_sizes seed [] ["13", "13", "13", "13"] s (by decide)
  · intro vals s hsum
    rw [multiHand_badRequest_iff]
    intro ⟨_, hlt⟩
    omega
  · intro vals e hall hsum
    have hnn : ∀ n ∈ effSizes vals, 0 ≤ n := fun n hn =>
      Int.le_trans (by norm_num) (hall n hn).1
    have htn : ((effSizes vals).map Int.toNat).sum = 52 := by
      rw [sum_toNat_of_nonneg _ hnn, hsum]
      rfl
    have hv : (∀ n ∈ effSizes vals, 1 ≤ n ∧ n < 53) ∧ (effSizes vals).sum < 53 :=
      ⟨hall, by omega⟩
    have hlen : ((getDeck seed ⟨e, none⟩).1).length = 52 :=
      getDeck_fresh_length seed ⟨e, none⟩ rfl
    have := multiHand_valid seed vals ⟨e, none⟩ hv (by rw [htn, hlen])
    exact ⟨_, by rw [this]⟩

theorem c3_witness :
    ∃ es, (multiHand none ["26", "26"] ⟨0, none⟩).1 = AppResp.hands es :=
  (c3_multi_hand_validation none).2.2.2.2 ["26", "26"] 0 (by decide) (by decide)

/-- C4: A `/dealer/hands` request failing validation is rejected with 400
before any deal: the handler returns the process state exactly as it
received it, so the shared deck is never partially consumed by a rejected
request. -/
theorem c4_no_partial_deal_on_reject (seed : Option String)
    (vals : List String) (s : ProcState)
    (hbad : ¬((∀ n ∈ effSizes vals, 1 ≤ n ∧ n < 53) ∧
      (effSizes vals).sum < 53)) :
    multiHand seed vals s = (.badRequest, s) :=
  multiHand_invalid seed vals s hbad

theorem c4_witness :
    multiHand none ["60"] ⟨0, none⟩ = (AppResp.badRequest, ⟨0, none⟩) :=
  c4_no_partial_deal_on_reject none ["60"] ⟨0, none⟩ (by decide)

/-- C5: The content-negotiation gate runs before everything else: a request
it rejects yields 400 with the state untouched; for non-exempt paths the
gate passes exactly when the `Accept` value contains the JSON token or
`$format` equals `json`; the two OpenAPI paths are always let through. -/
theorem c5_negotiation_gate (seed : Option String) :
    (∀ (req : HttpRequest) (s : ProcState),
      check_json req.path req.accept req.format = false →
      app seed req s = (.badRequest, s)) ∧
    (∀ (p : String) (a f : Option String),
      ¬(p = "/dealer/openapi.yaml" ∨ p = "/dealer/openapi.json") →
      (check_json p a f = true ↔
        ("json".toList <:+: (a.getD "*/*").toList ∨ (f.getD "html") = "json"))) ∧
    (∀ (a f : Option String),
      check_json "/dealer/openapi.yaml" a f = true ∧
      check_json "/dealer/openapi.json" a f = true) := by
  refine ⟨fun req s h => app_gate_reject seed req s h, check_json_iff, ?_⟩
  intro a f
  exact ⟨by simp [check_json], by simp [check_json]⟩

theorem c5_witness :
    app none ⟨"/dealer/hand", some "text/html", none, []⟩ ⟨0, none⟩ =
      (AppResp.badRequest, ⟨0, none⟩) :=
  (c5_negotiation_gate none).1 ⟨"/dealer/hand", some "text/html", none, []⟩
    ⟨0, none⟩ (by decide)

/-- C6: For every fixed seed string and fixed request sequence, two process
runs from freshly constructed states (with arbitrary, possibly different,
ambient entropy) produce identical response sequences and identical final
decks: the seeded construction plus dealing is two-run deterministic. -/
theorem c6_seeded_determinism (v : String) (e1 e2 : Nat)
    (reqs : List HttpRequest) :
    (runApp (some v) ⟨e1, none⟩ reqs).1 = (runApp (some v) ⟨e2, none⟩ reqs).1 ∧
    (runApp (some v) ⟨e1, none⟩ reqs).2.deck =
      (runApp (some v) ⟨e2, none⟩ reqs).2.deck :=
  runApp_congr v reqs ⟨e1, none⟩ ⟨e2, none⟩ rfl

/-- C7: `get_deck` constructs the deck at most once: once the deck exists
every call returns it with the state untouched, and the stored value no
longer depends on the seed; a successful `deal` only drops cards from the
front, so the ordering fixed at construction is preserved as a suffix and
only shrinks. -/
theorem c7_singleton_deck (seed : Option String) :
    (∀ (s : ProcState) (d : List Card), s.deck = some d →
      getDeck seed s = (d, s)) ∧
    (∀ (seed2 : Option String) (s : ProcState) (d : List Card),
      s.deck = some d → getDeck seed s = getDeck seed2 s) ∧
    (∀ (n : Nat) (d h d' : List Card), deal n d = .ok (h, d') →
      h = d.take n ∧ d' = d.drop n ∧ d' <:+ d ∧
        d'.length = d.length - n) := by
  refine ⟨fun s d h => getDeck_stable seed s d h, ?_, ?_⟩
  · intro seed2 s d h
    rw [getDeck_stable seed s d h, getDeck_stable seed2 s d h]
  · intro n d h d' hdeal
    by_cases hle : n ≤ d.length
    · rw [deal_le n d hle] at hdeal
      injection hdeal with hq
      injection hq with h1 h2
      subst h1
      subst h2
      exact ⟨rfl, rfl, List.drop_suffix n d, List.length_drop n d⟩
    · rw [deal_gt n d (by omega)] at hdeal
      exact absurd hdeal (by simp)

theorem c7_witness :
    getDeck none ⟨0, some unshuffled⟩ = (unshuffled, ⟨0, some unshuffled⟩) :=
  (c7_singleton_deck none).1 ⟨0, some unshuffled⟩ unshuffled rfl

/-- C8: On a valid `/dealer/hands` request against the stored deck, the
handler deals once per requested size, in request order, from the same
deck: the response enumerates (0-based `hand` index paired with its cards)
the consecutive slices of the deck, each slice has the requested size, and
when the deck is duplicate-free no card of an earlier hand reappears in a
later one. -/
theorem c8_sequential_hands (seed : Option String) (vals : List String)
    (s : ProcState) (d : List Card) (hdeck : s.deck = some d)
    (hv : (∀ n ∈ effSizes vals, 1 ≤ n ∧ n < 53) ∧ (effSizes vals).sum < 53)
    (hsum : ((effSizes vals).map Int.toNat).sum ≤ d.length) :
    multiHand seed vals s =
      (.hands (handSlices ((effSizes vals).map Int.toNat) d).enum,
       { s with deck := some (d.drop ((effSizes vals).map Int.toNat).sum) }) ∧
    (handSlices ((effSizes vals).map Int.toNat) d).length =
      (effSizes vals).length ∧
    List.Forall₂ (fun n h => (h : List Card).length = n)
      ((effSizes vals).map Int.toNat)
      (handSlices ((effSizes vals).map Int.toNat) d) ∧
    (∀ (j : Nat),
      ((handSlices ((effSizes vals).map Int.toNat) d).enum)[j]? =
        ((handSlices ((effSizes vals).map Int.toNat) d)[j]?).map
          fun h => (j, h)) ∧
    (d.Nodup →
      (handSlices ((effSizes vals).map Int.toNat) d).Pairwise List.Disjoint) := by
  refine ⟨multiHand_valid_stored seed vals s d hdeck hv hsum,
    (handSlices_length _ _).trans (List.length_map _ _), ?_, ?_, ?_⟩
  · exact handSlices_sizes _ _ hsum
  · intro j
    exact List.getElem?_enum _ _
  · exact fun hnd => handSlices_disjoint _ _ hnd

theorem c8_witness :
    (handSlices ((effSizes ["2", "1"]).map Int.toNat) unshuffled).Pairwise
      List.Disjoint :=
  (c8_sequential_hands none ["2", "1"] ⟨0, some unshuffled⟩ unshuffled rfl
    (by decide) (by decide)).2.2.2.2 unshuffled_nodup

/-- C9: a successful `deal` of `n` cards returns exactly `n` distinct cards
of the 52-card set, shrinks the remaining deck by `n`, and preserves the
process invariant that the remaining cards plus everything dealt so far
form a permutation of the full deck (hence remaining + dealt = 52 and no
card is ever duplicated); `deal` fails with `DeckExhausted` exactly when
`n` exceeds the remaining count. -/
theorem c9_deal_invariants (n : Nat) (d dealt : List Card)
    (hinv : (d ++ dealt).Perm unshuffled) :
    (n ≤ d.length →
      deal n d = .ok (d.take n, d.drop n) ∧
      (d.take n).length = n ∧
      (d.take n).Nodup ∧
      (∀ c ∈ d.take n, c ∈ unshuffled) ∧
      (d.drop n).length = d.length - n ∧
      ((d.drop n) ++ (dealt ++ d.take n)).Perm unshuffled ∧
      (d.drop n).length + (dealt ++ d.take n).length = 52) ∧
    (d.length < n → deal n d = .error .deckExhausted) := by
  have hnd : (d ++ dealt).Nodup := hinv.nodup_iff.mpr unshuffled_nodup
  have hd : d.Nodup := hnd.of_append_left
  constructor
  · intro hle
    have hperm1 : ((d.drop n) ++ (dealt ++ d.take n)).Perm (d ++ dealt) := by
      have s1 : ((d.drop n) ++ (dealt ++ d.take n)).Perm
          ((d.drop n) ++ (d.take n ++ dealt)) :=
        List.Perm.append_left _ List.perm_append_comm
      have s2 : ((d.drop n) ++ (d.take n ++ dealt)).Perm
          ((d.take n ++ d.drop n) ++ dealt) := by
        rw [← List.append_assoc]
        exact List.Perm.append_right _ List.perm_append_comm
      have s3 := s1.trans s2
      rwa [List.take_append_drop] at s3
    have hperm : ((d.drop n) ++ (dealt ++ d.take n)).Perm unshuffled :=
      hperm1.trans hinv
    have hcount : (d.drop n).length + (dealt ++ d.take n).length = 52 := by
      have hlen := hperm.length_eq
      rw [List.length_append, unshuffled_length] at hlen
      omega
    refine ⟨deal_le n d hle, ?_, ?_, ?_, List.length_drop n d, hperm, hcount⟩
    · rw [List.length_take]
      omega
    · exact (List.take_sublist n d).nodup hd
    · intro c hc
      exact hinv.subset (List.mem_append_left dealt (List.take_subset n d hc))
  · intro hgt
    exact deal_gt n d hgt

theorem c9_witness :
    deal 5 unshuffled = .ok (unshuffled.take 5, unshuffled.drop 5) :=
  ((c9_deal_invariants 5 unshuffled [] (by simp)).1 (by decide)).1

/-- C10: the gate's `Accept` test is plain substring containment of
`"json"` in the raw header value, defaulting to `"*/*"` when absent: a
missing `Accept` or `Accept: */*` is rejected unless `$format=json`, while
any value containing `"json"` — even one naming no JSON media type —
passes. -/
theorem c10_accept_substring :
    (∀ (p : String) (a f : Option String),
      ¬(p = "/dealer/openapi.yaml" ∨ p = "/dealer/openapi.json") →
      (check_json p a f = true ↔
        ("json".toList <:+: (a.getD "*/*").toList ∨ (f.getD "html") = "json"))) ∧
    check_json "/dealer/hand" none none = false ∧
    check_json "/dealer/hand" (some "*/*") none = false ∧
    check_json "/dealer/hand" none (some "json") = true ∧
    check_json "/dealer/hand" (some "application/nonjsonish") none = true := by
  exact ⟨check_json_iff, by decide, by decide, by decide, by decide⟩

theorem c10_witness :
    check_json "/dealer/hand" (some "application/json") none = true :=
  (c10_accept_substring.1 "/dealer/hand" (some "application/json") none
    (by decide)).mpr (Or.inl (by decide))

end Dealer
